import Mathlib

/-!
# fcer: line-aligned file partitioning

A shallow embedding of `FindPartitions` / `findPartitions` (src/fcer.go) and
theorems about the partitions they return.

Modelling choices.

* `int64` values are integers, and every `int64` addition and subtraction of
  the source goes through `wrap64` (two's complement wrap-around).
* A `[]*Partition` is a `List (Option Partition)`; `none` is a `nil` pointer
  (a slot that was never assigned).
* An `*os.File` is its byte content together with the errors that `Stat` and
  `ReadAt` report for it. `ReadAt` follows the contract of `io.ReaderAt` for
  files: a read that cannot fill the buffer reports `io.EOF`.
* The calls to `Log` have no effect on the result and are left out.
* The `ReadAt` calls are the only effect of the function on its file; a run
  records the offsets it read at, in order.
* `make([]*Partition, n)` panics for a negative `n` and for an `n` above
  `maxSliceLen`, the length at which a slice of pointers exceeds what the
  runtime can address. Running out of memory below that length depends on the
  machine and is not modelled.
-/

namespace Fcer

/-- A byte of a file. -/
abbrev Byte := Fin 256

/-- The byte the source writes as a newline character literal. -/
def newline : Byte := 10

/-- The length of `tmpBuf`, the lookahead buffer of `findPartitions`. -/
def lookahead : Nat := 50

/-- The type `Partition` of src/fcer.go: an absolute offset and a length. -/
structure Partition where
  Offset : Int
  Length : Int
deriving DecidableEq, Repr

/-- Error values: `io.EOF`, the error `ReadAt` gives for a negative offset, and
any other I/O error (identified by a code). -/
inductive Error where
  | EOF
  | negativeOffset
  | other (code : Nat)
deriving DecidableEq, Repr

/-- An open file: its bytes, the error `Stat` fails with (if it fails), and the
error a `ReadAt` at a given offset fails with (if it fails there). -/
structure File where
  content : List Byte
  statErr : Option Error
  readErr : Int → Option Error

/-- A file on which `Stat` and every `ReadAt` work. -/
def File.ofBytes (content : List Byte) : File :=
  { content := content, statErr := none, readErr := fun _ => none }

/-- Two's complement wrap-around of an integer into the range of `int64`. -/
def wrap64 (x : Int) : Int :=
  (x + 9223372036854775808) % 18446744073709551616 - 9223372036854775808

/-- Addition of `int64`. -/
def add64 (a b : Int) : Int := wrap64 (a + b)

/-- Subtraction of `int64`. -/
def sub64 (a b : Int) : Int := wrap64 (a - b)

/-- Division of `int64` by a non-zero divisor: truncated, as in Go. -/
def div64 (a b : Int) : Int := wrap64 (Int.tdiv a b)

/-- The pair `file.Stat()` gives, reduced to the size: `(stats.Size(), err)`. -/
def File.Stat (f : File) : Int × Option Error :=
  match f.statErr with
  | some e => (0, some e)
  | none => ((f.content.length : Int), none)

/-- The call `file.ReadAt(buf, off)` for a zeroed buffer `buf` of `n` bytes:
the buffer afterwards, and the error. The error is `nil` only when all `n`
bytes were read; at the end of the file it is `io.EOF`. -/
def File.ReadAt (f : File) (n : Nat) (off : Int) : List Byte × Option Error :=
  if off < 0 then (List.replicate n 0, some Error.negativeOffset)
  else
    match f.readErr off with
    | some e => (List.replicate n 0, some e)
    | none =>
      let data := (f.content.drop off.toNat).take n
      if data.length < n then
        (data ++ List.replicate (n - data.length) 0, some Error.EOF)
      else (data, none)

/-- What a call gives back: the two results of a `return`, or a run-time
panic. A `nil` slice is `none`. -/
inductive Outcome where
  | returned (partitions : Option (List (Option Partition))) (err : Option Error)
  | panicked
deriving DecidableEq, Repr

/-- A run of the function: its outcome and the offsets of its `ReadAt` calls. -/
structure Run where
  result : Outcome
  reads : List Int
deriving DecidableEq, Repr

/-- Puts one more `ReadAt` in front of the reads of a run. -/
def Run.afterRead (off : Int) (r : Run) : Run :=
  { r with reads := off :: r.reads }

/-- The inner loop `for skip := 0; skip < len(tmpBuf); skip++`, entered with the
bytes of `tmpBuf` from index `skip` on: the value of `skip` after `skip++` at
the first newline, or `none` when the loop ends without finding one. -/
def scan : List Byte → Nat → Option Nat
  | [], _ => none
  | b :: rest, skip => if b = newline then some (skip + 1) else scan rest (skip + 1)

/-- The loop `for idx := 0; idx < intendedWorkers; idx++` of `findPartitions`.
The first argument counts the iterations that are left (`intendedWorkers - idx`),
so the loop ends when it is `0`; then come `idx`, `partitions`, `currentStart`
and `currentEnd`. -/
def findPartitionsLoop (file : File) (totalSize partitionSize : Int) (intendedWorkers : Int) :
    Nat → Nat → List (Option Partition) → Int → Int → Run
  | 0, _, partitions, _, _ => ⟨Outcome.returned (some partitions) none, []⟩
  | left + 1, idx, partitions, currentStart, currentEnd =>
    if (idx : Int) = intendedWorkers - 1 then
      let partitions := partitions.set idx
        (some { Offset := currentStart, Length := sub64 totalSize currentStart })
      findPartitionsLoop file totalSize partitionSize intendedWorkers left (idx + 1) partitions
        currentEnd (add64 currentEnd partitionSize)
    else
      match file.ReadAt lookahead currentEnd with
      | (_, some Error.EOF) =>
        let partitions := partitions.set idx
          (some { Offset := currentStart, Length := sub64 totalSize currentStart })
        ⟨Outcome.returned (some (partitions.take (idx + 1))) none, [currentEnd]⟩
      | (_, some err) => ⟨Outcome.returned none (some err), [currentEnd]⟩
      | (tmpBuf, none) =>
        match scan tmpBuf 0 with
        | some skip =>
          let movedEnd := add64 currentEnd (skip : Int)
          let partitions := partitions.set idx
            (some { Offset := currentStart, Length := sub64 movedEnd currentStart })
          Run.afterRead currentEnd
            (findPartitionsLoop file totalSize partitionSize intendedWorkers left (idx + 1)
              partitions movedEnd (add64 movedEnd partitionSize))
        | none =>
          Run.afterRead currentEnd
            (findPartitionsLoop file totalSize partitionSize intendedWorkers left (idx + 1)
              partitions currentEnd (add64 currentEnd partitionSize))

/-- The largest length `make([]*Partition, n)` accepts on a 64-bit platform:
the runtime refuses (`makeslice: len out of range`) a slice of more than
`maxAlloc = 2 ^ 48` bytes, and a pointer has 8 bytes, so the limit is
`2 ^ 45`. -/
def maxSliceLen : Int := 35184372088832

/-- The function `findPartitions` of src/fcer.go. `make` panics on a negative
length and on a length above `maxSliceLen`; otherwise the slice starts as
`intendedWorkers` nil pointers. -/
def findPartitions (file : File) (totalSize partitionSize : Int) (intendedWorkers : Int) : Run :=
  if intendedWorkers < 0 ∨ maxSliceLen < intendedWorkers then ⟨Outcome.panicked, []⟩
  else
    let partitions : List (Option Partition) := List.replicate intendedWorkers.toNat none
    let currentStart : Int := 0
    let currentEnd : Int := partitionSize
    findPartitionsLoop file totalSize partitionSize intendedWorkers intendedWorkers.toNat 0
      partitions currentStart currentEnd

/-- The function `FindPartitions` of src/fcer.go. The division panics when
`intendedWorkers` is zero. -/
def FindPartitions (file : File) (intendedWorkers : Int) : Run :=
  match file.Stat with
  | (_, some err) => ⟨Outcome.returned none (some err), []⟩
  | (totalSize, none) =>
    if intendedWorkers = 0 then ⟨Outcome.panicked, []⟩
    else
      let partitionSize := div64 totalSize intendedWorkers
      findPartitions file totalSize partitionSize intendedWorkers

/-- The bytes a lookahead at offset `off` looks at: the next `lookahead`
bytes of the content. -/
def window (content : List Byte) (off : Int) : List Byte :=
  (content.drop off.toNat).take lookahead

/-- The byte of the content at an absolute position, if there is one. -/
def byteAt (content : List Byte) (pos : Int) : Option Byte :=
  if pos < 0 then none else content[pos.toNat]?

/-- The entries that the loop of `findPartitions` leaves in the slice from the
current index on, for a file that reads without errors, in exact arithmetic:
`left` iterations are left and the current index starts at `currentStart`. -/
def emit (content : List Byte) (partitionSize : Int) : Nat → Int → List (Option Partition)
  | 0, _ => []
  | 1, currentStart =>
    [some { Offset := currentStart, Length := (content.length : Int) - currentStart }]
  | left + 2, currentStart =>
    if (content.length : Int) < currentStart + partitionSize + (lookahead : Int) then
      [some { Offset := currentStart, Length := (content.length : Int) - currentStart }]
    else
      match scan (window content (currentStart + partitionSize)) 0 with
      | some skip =>
        some { Offset := currentStart, Length := partitionSize + (skip : Int) } ::
          emit content partitionSize (left + 1) (currentStart + partitionSize + (skip : Int))
      | none => none :: emit content partitionSize (left + 1) (currentStart + partitionSize)

/-- The offsets the loop of `findPartitions` reads at from the current index
on, under the same conditions as `emit`. -/
def probes (content : List Byte) (partitionSize : Int) : Nat → Int → List Int
  | 0, _ => []
  | 1, _ => []
  | left + 2, currentStart =>
    (currentStart + partitionSize) ::
      if (content.length : Int) < currentStart + partitionSize + (lookahead : Int) then []
      else
        match scan (window content (currentStart + partitionSize)) 0 with
        | some skip =>
          probes content partitionSize (left + 1) (currentStart + partitionSize + (skip : Int))
        | none => probes content partitionSize (left + 1) (currentStart + partitionSize)

/-- The sum of the `Length`s of the partitions of a list that are set. -/
def lengthSum (ps : List (Option Partition)) : Int :=
  ((ps.filterMap id).map Partition.Length).sum

/-! ## Sample files -/

/-- Thirty lines of nine letters and a newline each: 300 bytes. -/
def linesFile : List Byte := (List.replicate 30 (List.replicate 9 97 ++ [10])).flatten

/-- A file of 120 letters without any newline. -/
def longLineFile : List Byte := List.replicate 120 97

/-- A file of 100 bytes: one line of 99 letters and its newline. -/
def oneLineFile : List Byte := List.replicate 99 97 ++ [10]

/-- A file of 3 letters, with no newline at its end. -/
def abcFile : List Byte := [97, 98, 99]

/-- A file of 10 bytes: one line of 9 letters and its newline. -/
def tenByteFile : List Byte := List.replicate 9 97 ++ [10]

/-- Ten lines of nine letters and a newline each: 100 bytes. -/
def shortLinesFile : List Byte := (List.replicate 10 (List.replicate 9 97 ++ [10])).flatten

/-- The bytes of `linesFile` in a file whose reads at offset 155 fail with an
I/O error that is not `io.EOF`. -/
def faultyFile : File :=
  { content := linesFile
    statErr := none
    readErr := fun off => if off = 155 then some (Error.other 5) else none }

/-- A file on which `Stat` fails. -/
def unreadableFile : File :=
  { content := linesFile, statErr := some (Error.other 13), readErr := fun _ => none }

/-! ## Arithmetic of `int64` -/

theorem wrap64_eq_self (x : Int) (h1 : -9223372036854775808 ≤ x)
    (h2 : x < 9223372036854775808) : wrap64 x = x := by
  unfold wrap64
  omega

theorem tdiv_bounds (t k : Int) (ht : 0 ≤ t) (hk : 1 ≤ k) :
    0 ≤ Int.tdiv t k ∧ Int.tdiv t k ≤ t := by
  have hk0 : 0 ≤ k := by omega
  rw [Int.tdiv_eq_ediv ht hk0]
  constructor
  · exact Int.ediv_nonneg ht hk0
  · exact Int.ediv_le_self k ht

/-! ## The inner loop -/

theorem scan_some (buf : List Byte) : ∀ (skip r : Nat), scan buf skip = some r →
    skip < r ∧ r ≤ skip + buf.length ∧ buf[r - skip - 1]? = some newline ∧
      ∀ j, j < r - skip - 1 → buf[j]? ≠ some newline := by
  induction buf with
  | nil => intro skip r h; simp [scan] at h
  | cons b rest ih =>
    intro skip r h
    unfold scan at h
    by_cases hb : b = newline
    · simp only [hb, if_true, Option.some.injEq] at h
      subst h
      refine ⟨by omega, by simp, ?_, ?_⟩
      · have : skip + 1 - skip - 1 = 0 := by omega
        simp [this, hb]
      · intro j hj
        omega
    · simp only [hb, if_false] at h
      obtain ⟨h1, h2, h3, h4⟩ := ih (skip + 1) r h
      refine ⟨by omega, by simp only [List.length_cons]; omega, ?_, ?_⟩
      · have : r - skip - 1 = (r - (skip + 1) - 1) + 1 := by omega
        rw [this, List.getElem?_cons_succ]
        exact h3
      · intro j hj
        cases j with
        | zero => simpa using hb
        | succ j =>
          rw [List.getElem?_cons_succ]
          exact h4 j (by omega)

theorem scan_none (buf : List Byte) : ∀ (skip : Nat), scan buf skip = none → newline ∉ buf := by
  induction buf with
  | nil => intro skip _; simp
  | cons b rest ih =>
    intro skip h
    unfold scan at h
    by_cases hb : b = newline
    · simp [hb] at h
    · simp only [hb, if_false] at h
      have := ih (skip + 1) h
      simp only [List.mem_cons, not_or]
      exact ⟨fun e => hb e.symm, this⟩

/-! ## Reading a file that has no errors -/

theorem window_length (content : List Byte) (off : Int) (h0 : 0 ≤ off)
    (h : off + (lookahead : Int) ≤ content.length) : (window content off).length = lookahead := by
  unfold window
  simp only [List.length_take, List.length_drop]
  omega

theorem window_getElem? (content : List Byte) (off : Int) (h0 : 0 ≤ off) (j : Nat)
    (hj : j < lookahead) : (window content off)[j]? = byteAt content (off + j) := by
  unfold window byteAt
  have h1 : ¬ (off + (j : Int) < 0) := by omega
  have h2 : (off + (j : Int)).toNat = off.toNat + j := by omega
  rw [if_neg h1, h2, List.getElem?_take_of_lt hj, List.getElem?_drop]

theorem ReadAt_ok (content : List Byte) (off : Int) (h0 : 0 ≤ off)
    (h : off + (lookahead : Int) ≤ content.length) :
    (File.ofBytes content).ReadAt lookahead off = (window content off, none) := by
  have hlen := window_length content off h0 h
  unfold window at hlen
  unfold File.ReadAt File.ofBytes window
  simp only [if_neg (not_lt.mpr h0)]
  rw [if_neg (by omega)]

theorem ReadAt_eof (content : List Byte) (off : Int) (h0 : 0 ≤ off)
    (h : (content.length : Int) < off + (lookahead : Int)) :
    ∃ buf, (File.ofBytes content).ReadAt lookahead off = (buf, some Error.EOF) := by
  unfold File.ReadAt File.ofBytes
  simp only [if_neg (not_lt.mpr h0)]
  have : ((content.drop off.toNat).take lookahead).length < lookahead := by
    simp only [List.length_take, List.length_drop, lookahead] at h ⊢
    omega
  rw [if_pos this]
  exact ⟨_, rfl⟩

/-! ## The slice -/

theorem set_take_succ {α : Type} (l : List α) (x : α) :
    ∀ i, i < l.length → (l.set i x).take (i + 1) = l.take i ++ [x] := by
  induction l with
  | nil => intro i h; simp at h
  | cons a t ih =>
    intro i h
    cases i with
    | zero => simp
    | succ i =>
      simp only [List.length_cons] at h
      simp only [List.set_cons_succ, List.take_succ_cons, List.cons_append, List.cons.injEq,
        true_and]
      exact ih i (by omega)

theorem set_last {α : Type} (l : List α) (x : α) (i : Nat) (h : i + 1 = l.length) :
    l.set i x = l.take i ++ [x] := by
  rw [← set_take_succ l x i (by omega)]
  rw [List.take_of_length_le]
  simp only [List.length_set]
  omega

theorem drop_replicate_succ {α : Type} (l : List α) (x : α) (i n : Nat)
    (h : l.drop i = List.replicate (n + 1) x) :
    l.drop (i + 1) = List.replicate n x ∧ l[i]? = some x := by
  constructor
  · have h1 : l.drop (i + 1) = (l.drop i).drop 1 := by
      rw [List.drop_drop, Nat.add_comm]
    rw [h1, h]
    simp [List.replicate_succ]
  · have h2 : l[i]? = (l.drop i)[0]? := by
      rw [List.getElem?_drop]
      simp
    rw [h2, h]
    simp [List.replicate_succ]

theorem take_succ_of_getElem? {α : Type} (l : List α) (x : α) (i : Nat) (h : l[i]? = some x) :
    l.take (i + 1) = l.take i ++ [x] := by
  rw [List.take_succ, h]
  rfl

/-! ## The loop writes `emit` and reads at `probes` -/

theorem findPartitionsLoop_eq (content : List Byte) (ps k : Int) (hps0 : 0 ≤ ps)
    (hpsT : ps ≤ content.length) (hT : (content.length : Int) < 4611686018427387904) :
    ∀ (left idx : Nat) (partitions : List (Option Partition)) (cs : Int),
      (idx : Int) + left = k → partitions.length = idx + left →
      partitions.drop idx = List.replicate left none → 0 ≤ cs → cs ≤ content.length →
      findPartitionsLoop (File.ofBytes content) content.length ps k left idx partitions cs
          (cs + ps)
        = ⟨Outcome.returned (some (partitions.take idx ++ emit content ps left cs)) none,
            probes content ps left cs⟩ := by
  intro left
  induction left with
  | zero =>
    intro idx partitions cs _ hlen _ _ _
    simp only [findPartitionsLoop, emit, probes, List.append_nil]
    rw [List.take_of_length_le (by omega)]
  | succ left ih =>
    intro idx partitions cs hk hlen hrest hcs0 hcsT
    have hsub : sub64 (content.length : Int) cs = content.length - cs := by
      unfold sub64
      exact wrap64_eq_self _ (by omega) (by omega)
    cases left with
    | zero =>
      have hidx : (idx : Int) = k - 1 := by omega
      simp only [findPartitionsLoop, hidx, if_true, emit, probes, hsub]
      rw [set_last partitions _ idx (by omega)]
    | succ left =>
      have hidx : ¬ ((idx : Int) = k - 1) := by omega
      obtain ⟨hdrop, hget⟩ := drop_replicate_succ partitions none idx (left + 1) hrest
      unfold findPartitionsLoop
      simp only [hidx, if_false]
      by_cases heof : (content.length : Int) < cs + ps + (lookahead : Int)
      · obtain ⟨buf, hbuf⟩ := ReadAt_eof content (cs + ps) (by omega) heof
        simp only [hbuf, emit, probes, heof, if_true, hsub]
        rw [set_take_succ partitions _ idx (by omega)]
      · have hok := ReadAt_ok content (cs + ps) (by omega) (by omega)
        have hwl := window_length content (cs + ps) (by omega) (by omega)
        simp only [hok, emit, probes, heof, if_false]
        simp only [lookahead] at heof hwl
        cases hscan : scan (window content (cs + ps)) 0 with
        | none =>
          have hadd : add64 (cs + ps) ps = cs + ps + ps := by
            unfold add64
            exact wrap64_eq_self _ (by omega) (by omega)
          simp only [hadd]
          rw [ih (idx + 1) partitions (cs + ps) (by push_cast; omega) (by omega) hdrop
            (by omega) (by omega)]
          simp only [Run.afterRead]
          rw [take_succ_of_getElem? partitions none idx hget, List.append_assoc]
          rfl
        | some skip =>
          obtain ⟨hs1, hs2, -, -⟩ := scan_some _ 0 skip hscan
          have hmoved : add64 (cs + ps) (skip : Int) = cs + ps + skip := by
            unfold add64
            exact wrap64_eq_self _ (by omega) (by omega)
          have hadd : add64 (cs + ps + skip) ps = cs + ps + skip + ps := by
            unfold add64
            exact wrap64_eq_self _ (by omega) (by omega)
          have hlength : sub64 (cs + ps + skip) cs = ps + skip := by
            unfold sub64
            rw [wrap64_eq_self _ (by omega) (by omega)]
            omega
          simp only [hmoved, hadd, hlength]
          rw [ih (idx + 1) _ (cs + ps + skip) (by push_cast; omega)
            (by simp only [List.length_set]; omega)
            (by rw [List.drop_set_of_lt _ _ (by omega)]; exact hdrop)
            (by omega) (by omega)]
          simp only [Run.afterRead]
          rw [set_take_succ partitions _ idx (by omega), List.append_assoc]
          rfl

theorem FindPartitions_eq (content : List Byte) (k : Int) (hk : 1 ≤ k)
    (hmake : k ≤ maxSliceLen) (hT : content.length < 2 ^ 62) :
    FindPartitions (File.ofBytes content) k
      = ⟨Outcome.returned
            (some (emit content (Int.tdiv (content.length : Int) k) k.toNat 0)) none,
          probes content (Int.tdiv (content.length : Int) k) k.toNat 0⟩ := by
  have hT2 : (content.length : Int) < 4611686018427387904 := by omega
  obtain ⟨hd0, hdT⟩ := tdiv_bounds (content.length : Int) k (by omega) hk
  have hdiv : div64 (content.length : Int) k = Int.tdiv (content.length : Int) k := by
    unfold div64
    exact wrap64_eq_self _ (by omega) (by omega)
  have hk0 : ¬ (k = 0) := by omega
  have hkneg : ¬ (k < 0 ∨ maxSliceLen < k) := by omega
  have hloop := findPartitionsLoop_eq content (Int.tdiv (content.length : Int) k) k hd0 hdT hT2
    k.toNat 0 (List.replicate k.toNat none) 0 (by omega) (by simp) (by simp) (by omega)
    (by omega)
  simp only [zero_add, List.take_zero, List.nil_append] at hloop
  simp only [FindPartitions, File.Stat, File.ofBytes, hk0, if_false, hdiv, findPartitions,
    hkneg]
  exact hloop

/-- Above the limit of `make` the call panics, before any read. -/
theorem FindPartitions_make_panics (f : File) (k : Int) (hstat : f.statErr = none)
    (hbig : maxSliceLen < k) : FindPartitions f k = ⟨Outcome.panicked, []⟩ := by
  have hk0 : ¬ (k = 0) := by
    unfold maxSliceLen at hbig
    omega
  have hc : k < 0 ∨ maxSliceLen < k := Or.inr hbig
  simp only [FindPartitions, File.Stat, hstat, hk0, if_false, findPartitions, hc, if_true]

/-! ## What `emit` and `probes` are, case by case -/

theorem emit_cases (content : List Byte) (ps : Int) (left : Nat) (cs : Int) :
    ((content.length : Int) < cs + ps + 50 ∧
        emit content ps (left + 2) cs
          = [some { Offset := cs, Length := (content.length : Int) - cs }] ∧
        probes content ps (left + 2) cs = [cs + ps]) ∨
    (cs + ps + 50 ≤ (content.length : Int) ∧
        ∃ skip, scan (window content (cs + ps)) 0 = some skip ∧
          emit content ps (left + 2) cs
            = some { Offset := cs, Length := ps + (skip : Int) } ::
                emit content ps (left + 1) (cs + ps + (skip : Int)) ∧
          probes content ps (left + 2) cs
            = (cs + ps) :: probes content ps (left + 1) (cs + ps + (skip : Int))) ∨
    (cs + ps + 50 ≤ (content.length : Int) ∧
        scan (window content (cs + ps)) 0 = none ∧
        emit content ps (left + 2) cs = none :: emit content ps (left + 1) (cs + ps) ∧
        probes content ps (left + 2) cs = (cs + ps) :: probes content ps (left + 1) (cs + ps)) := by
  by_cases heof : (content.length : Int) < cs + ps + 50
  · left
    refine ⟨heof, ?_, ?_⟩ <;> simp [emit, probes, lookahead, heof]
  · right
    cases hscan : scan (window content (cs + ps)) 0 with
    | none =>
      right
      refine ⟨by omega, rfl, ?_, ?_⟩ <;> simp [emit, probes, lookahead, heof, hscan]
    | some skip =>
      left
      refine ⟨by omega, skip, rfl, ?_, ?_⟩ <;> simp [emit, probes, lookahead, heof, hscan]

/-- A newline found by `scan` in the window at `off` is a newline of the file. -/
theorem scan_window (content : List Byte) (off : Int) (skip : Nat) (h0 : 0 ≤ off)
    (hfull : off + 50 ≤ (content.length : Int))
    (h : scan (window content off) 0 = some skip) :
    1 ≤ skip ∧ skip ≤ 50 ∧ byteAt content (off + (skip : Int) - 1) = some newline := by
  obtain ⟨h1, h2, h3, -⟩ := scan_some _ 0 skip h
  have hwl := window_length content off h0 (by simp only [lookahead]; omega)
  simp only [lookahead] at hwl
  refine ⟨by omega, by omega, ?_⟩
  have hj : skip - 0 - 1 < lookahead := by simp only [lookahead]; omega
  rw [window_getElem? content off h0 _ hj] at h3
  have e : off + ((skip - 0 - 1 : Nat) : Int) = off + (skip : Int) - 1 := by omega
  rw [e] at h3
  exact h3

/-! ## Properties of the emitted entries -/

theorem emit_length (content : List Byte) (ps : Int) :
    ∀ (left : Nat) (cs : Int), 1 ≤ (emit content ps (left + 1) cs).length ∧
      (emit content ps (left + 1) cs).length ≤ left + 1 := by
  intro left
  induction left with
  | zero => intro cs; simp [emit]
  | succ left ih =>
    intro cs
    rcases emit_cases content ps left cs with ⟨-, he, -⟩ | ⟨-, skip, -, he, -⟩ | ⟨-, -, he, -⟩
    · rw [he]; simp
    · rw [he]
      have := ih (cs + ps + (skip : Int))
      simp only [List.length_cons]
      omega
    · rw [he]
      have := ih (cs + ps)
      simp only [List.length_cons]
      omega

theorem emit_bounds (content : List Byte) (ps : Int) (hps : 0 ≤ ps) :
    ∀ (left : Nat) (cs : Int), 0 ≤ cs → cs ≤ (content.length : Int) →
      ∀ p, some p ∈ emit content ps (left + 1) cs →
        cs ≤ p.Offset ∧ 0 ≤ p.Length ∧ p.Offset + p.Length ≤ (content.length : Int) := by
  intro left
  induction left with
  | zero =>
    intro cs h0 hT p hp
    simp only [emit, List.mem_singleton, Option.some.injEq] at hp
    subst hp
    simp only
    omega
  | succ left ih =>
    intro cs h0 hT p hp
    rcases emit_cases content ps left cs with ⟨-, he, -⟩ | ⟨hfull, skip, hs, he, -⟩ |
      ⟨hfull, -, he, -⟩
    · rw [he] at hp
      simp only [List.mem_singleton, Option.some.injEq] at hp
      subst hp
      simp only
      omega
    · obtain ⟨h1, h2, -⟩ := scan_window content (cs + ps) skip (by omega) hfull hs
      rw [he] at hp
      simp only [List.mem_cons, Option.some.injEq] at hp
      rcases hp with hp | hp
      · subst hp
        simp only
        omega
      · have := ih (cs + ps + (skip : Int)) (by omega) (by omega) p hp
        omega
    · rw [he] at hp
      simp only [List.mem_cons] at hp
      rcases hp with hp | hp
      · exact absurd hp (by simp)
      · have := ih (cs + ps) (by omega) (by omega) p hp
        omega

theorem emit_ordered (content : List Byte) (ps : Int) (hps : 0 ≤ ps) :
    ∀ (left : Nat) (cs : Int), 0 ≤ cs → cs ≤ (content.length : Int) →
      ∀ (i j : Nat) (p q : Partition), i < j →
        (emit content ps (left + 1) cs)[i]? = some (some p) →
        (emit content ps (left + 1) cs)[j]? = some (some q) →
        p.Offset + p.Length ≤ q.Offset := by
  intro left
  induction left with
  | zero =>
    intro cs _ _ i j p q hij _ hq
    simp only [emit] at hq
    have : j < 1 := by
      have := (List.getElem?_eq_some_iff.mp hq).1
      simpa using this
    omega
  | succ left ih =>
    intro cs h0 hT i j p q hij hp hq
    rcases emit_cases content ps left cs with ⟨-, he, -⟩ | ⟨hfull, skip, hs, he, -⟩ |
      ⟨hfull, -, he, -⟩
    · rw [he] at hq
      have : j < 1 := by
        have := (List.getElem?_eq_some_iff.mp hq).1
        simpa using this
      omega
    · obtain ⟨h1, h2, -⟩ := scan_window content (cs + ps) skip (by omega) hfull hs
      rw [he] at hp hq
      obtain ⟨j, rfl⟩ : ∃ j', j = j' + 1 := ⟨j - 1, by omega⟩
      rw [List.getElem?_cons_succ] at hq
      cases i with
      | zero =>
        simp only [List.getElem?_cons_zero, Option.some.injEq] at hp
        subst hp
        have := emit_bounds content ps hps left (cs + ps + (skip : Int)) (by omega) (by omega) q
          (List.getElem?_mem hq)
        simp only
        omega
      | succ i =>
        rw [List.getElem?_cons_succ] at hp
        exact ih (cs + ps + (skip : Int)) (by omega) (by omega) i j p q (by omega) hp hq
    · rw [he] at hp hq
      obtain ⟨j, rfl⟩ : ∃ j', j = j' + 1 := ⟨j - 1, by omega⟩
      rw [List.getElem?_cons_succ] at hq
      cases i with
      | zero => simp at hp
      | succ i =>
        rw [List.getElem?_cons_succ] at hp
        exact ih (cs + ps) (by omega) (by omega) i j p q (by omega) hp hq

theorem emit_getLast (content : List Byte) (ps : Int) :
    ∀ (left : Nat) (cs : Int), ∃ p, (emit content ps (left + 1) cs).getLast? = some (some p) ∧
      p.Offset + p.Length = (content.length : Int) := by
  intro left
  induction left with
  | zero =>
    intro cs
    exact ⟨{ Offset := cs, Length := (content.length : Int) - cs }, by simp [emit], by simp⟩
  | succ left ih =>
    intro cs
    rcases emit_cases content ps left cs with ⟨-, he, -⟩ | ⟨-, skip, -, he, -⟩ | ⟨-, -, he, -⟩
    · rw [he]
      exact ⟨{ Offset := cs, Length := (content.length : Int) - cs }, by simp, by simp⟩
    · obtain ⟨p, hp, hpT⟩ := ih (cs + ps + (skip : Int))
      refine ⟨p, ?_, hpT⟩
      rw [he]
      cases hl : emit content ps (left + 1) (cs + ps + (skip : Int)) with
      | nil => rw [hl] at hp; simp at hp
      | cons b t => rw [hl] at hp; rw [List.getLast?_cons_cons]; exact hp
    · obtain ⟨p, hp, hpT⟩ := ih (cs + ps)
      refine ⟨p, ?_, hpT⟩
      rw [he]
      cases hl : emit content ps (left + 1) (cs + ps) with
      | nil => rw [hl] at hp; simp at hp
      | cons b t => rw [hl] at hp; rw [List.getLast?_cons_cons]; exact hp

/-- An entry that is set and is not the last one was written after a scan that
found a newline: it ends right after that newline and is between
`partitionSize + 1` and `partitionSize + 50` bytes long. -/
theorem emit_inner (content : List Byte) (ps : Int) (hps : 0 ≤ ps) :
    ∀ (left : Nat) (cs : Int), 0 ≤ cs → cs ≤ (content.length : Int) →
      ∀ (i : Nat) (p : Partition), i + 1 < (emit content ps (left + 1) cs).length →
        (emit content ps (left + 1) cs)[i]? = some (some p) →
        byteAt content (p.Offset + p.Length - 1) = some newline ∧
          ps + 1 ≤ p.Length ∧ p.Length ≤ ps + 50 := by
  intro left
  induction left with
  | zero =>
    intro cs _ _ i p hi _
    simp [emit] at hi
  | succ left ih =>
    intro cs h0 hT i p hi hp
    rcases emit_cases content ps left cs with ⟨-, he, -⟩ | ⟨hfull, skip, hs, he, -⟩ |
      ⟨hfull, -, he, -⟩
    · rw [he] at hi
      simp at hi
    · obtain ⟨h1, h2, h3⟩ := scan_window content (cs + ps) skip (by omega) hfull hs
      rw [he] at hp hi
      simp only [List.length_cons] at hi
      cases i with
      | zero =>
        simp only [List.getElem?_cons_zero, Option.some.injEq] at hp
        subst hp
        have e : cs + (ps + (skip : Int)) - 1 = cs + ps + (skip : Int) - 1 := by omega
        simp only [e]
        exact ⟨h3, by omega, by omega⟩
      | succ i =>
        rw [List.getElem?_cons_succ] at hp
        exact ih (cs + ps + (skip : Int)) (by omega) (by omega) i p (by omega) hp
    · rw [he] at hp hi
      simp only [List.length_cons] at hi
      cases i with
      | zero => simp at hp
      | succ i =>
        rw [List.getElem?_cons_succ] at hp
        exact ih (cs + ps) (by omega) (by omega) i p (by omega) hp

/-- When every window that is read in full has a newline, every entry is set,
the first one starts at `cs`, and each next one starts where the one before it
ends. -/
theorem emit_tiles (content : List Byte) (ps : Int) (hps : 0 ≤ ps) :
    ∀ (left : Nat) (cs : Int), 0 ≤ cs → cs ≤ (content.length : Int) →
      (∀ off ∈ probes content ps (left + 1) cs, off + 50 ≤ (content.length : Int) →
        newline ∈ window content off) →
      (∀ e ∈ emit content ps (left + 1) cs, e ≠ none) ∧
      (∃ p, (emit content ps (left + 1) cs)[0]? = some (some p) ∧ p.Offset = cs) ∧
      (∀ (i : Nat) (p q : Partition), (emit content ps (left + 1) cs)[i]? = some (some p) →
        (emit content ps (left + 1) cs)[i + 1]? = some (some q) →
        q.Offset = p.Offset + p.Length) := by
  intro left
  induction left with
  | zero =>
    intro cs _ _ _
    refine ⟨by simp [emit], ⟨{ Offset := cs, Length := (content.length : Int) - cs }, by simp [emit], rfl⟩, ?_⟩
    intro i p q _ hq
    simp [emit] at hq
  | succ left ih =>
    intro cs h0 hT hwin
    rcases emit_cases content ps left cs with ⟨-, he, -⟩ | ⟨hfull, skip, hs, he, hpr⟩ |
      ⟨hfull, hs, -, hpr⟩
    · rw [he]
      refine ⟨by simp, ⟨{ Offset := cs, Length := (content.length : Int) - cs }, by simp, rfl⟩, ?_⟩
      intro i p q _ hq
      simp at hq
    · obtain ⟨h1, h2, -⟩ := scan_window content (cs + ps) skip (by omega) hfull hs
      rw [hpr] at hwin
      obtain ⟨hset, ⟨q0, hq0, hq0off⟩, hnext⟩ := ih (cs + ps + (skip : Int)) (by omega)
        (by omega) (fun off hoff => hwin off (List.mem_cons_of_mem _ hoff))
      rw [he]
      refine ⟨?_, ⟨{ Offset := cs, Length := ps + (skip : Int) }, by simp, rfl⟩, ?_⟩
      · intro e hmem
        simp only [List.mem_cons] at hmem
        rcases hmem with hmem | hmem
        · rw [hmem]; simp
        · exact hset e hmem
      · intro i p q hp hq
        rw [List.getElem?_cons_succ] at hq
        cases i with
        | zero =>
          simp only [List.getElem?_cons_zero, Option.some.injEq] at hp
          subst hp
          rw [hq0] at hq
          simp only [Option.some.injEq] at hq
          subst hq
          simp only
          omega
        | succ i =>
          rw [List.getElem?_cons_succ] at hp
          exact hnext i p q hp hq
    · exfalso
      rw [hpr] at hwin
      exact scan_none _ 0 hs (hwin (cs + ps) (List.mem_cons_self _ _) (by omega))

theorem emit_small (content : List Byte) (ps : Int) (hps : 0 ≤ ps)
    (hsmall : content.length < 50) (left : Nat) :
    emit content ps (left + 1) 0
      = [some { Offset := 0, Length := (content.length : Int) }] := by
  cases left with
  | zero => simp [emit]
  | succ left =>
    rcases emit_cases content ps left 0 with ⟨-, he, -⟩ | ⟨hfull, -⟩ | ⟨hfull, -⟩
    · rw [he]; simp
    · omega
    · omega

theorem emit_last (content : List Byte) (ps : Int) (left : Nat) (cs : Int) (i : Nat)
    (p : Partition) (hi : i + 1 = (emit content ps (left + 1) cs).length)
    (hp : (emit content ps (left + 1) cs)[i]? = some (some p)) :
    p.Offset + p.Length = (content.length : Int) := by
  obtain ⟨q, hq, hqT⟩ := emit_getLast content ps left cs
  rw [List.getLast?_eq_getElem?] at hq
  have e : (emit content ps (left + 1) cs).length - 1 = i := by omega
  rw [e, hp] at hq
  simp only [Option.some.injEq] at hq
  rw [hq]
  exact hqT

/-! ## The partitions `FindPartitions` returns

The theorems below are about files of fewer than `2 ^ 62` bytes read without
I/O errors; below that size no `int64` operation of the loop wraps around. A
list is returned when `make` accepts `intendedWorkers` as a length, that is up
to `maxSliceLen`; above it the call panics and returns nothing. -/

theorem toNat_succ (k : Int) (hk : 1 ≤ k) : ∃ left, k.toNat = left + 1 :=
  ⟨k.toNat - 1, by omega⟩

/-- C1: when every 50-byte lookahead window that the run reads in full (a read
at `off` with `off + 50 ≤ T`) contains a newline, `FindPartitions` succeeds,
every slot of the returned list is set, the first partition has `Offset` 0, each
following partition starts at the `Offset + Length` of the one before it, and
the last partition ends at `T`. This is so for every `intendedWorkers` that
`make` accepts as a length; above `maxSliceLen` the call panics. -/
theorem partitions_tile_file (content : List Byte) (k : Int) (hk : 1 ≤ k)
    (hT : content.length < 2 ^ 62)
    (hwin : ∀ off ∈ (FindPartitions (File.ofBytes content) k).reads,
      off + 50 ≤ (content.length : Int) → newline ∈ window content off) :
    (k ≤ maxSliceLen →
      ∃ ps, (FindPartitions (File.ofBytes content) k).result
          = Outcome.returned (some ps) none ∧
        (∀ e ∈ ps, e ≠ none) ∧
        (∃ p, ps[0]? = some (some p) ∧ p.Offset = 0) ∧
        (∀ (i : Nat) (p q : Partition), ps[i]? = some (some p) → ps[i + 1]? = some (some q) →
          q.Offset = p.Offset + p.Length) ∧
        (∃ p, ps.getLast? = some (some p) ∧ p.Offset + p.Length = (content.length : Int))) ∧
    (maxSliceLen < k → (FindPartitions (File.ofBytes content) k).result = Outcome.panicked) := by
  refine ⟨fun hmake => ?_, fun hbig => by rw [FindPartitions_make_panics _ k rfl hbig]⟩
  obtain ⟨left, hleft⟩ := toNat_succ k hk
  obtain ⟨hd0, -⟩ := tdiv_bounds (content.length : Int) k (by omega) hk
  rw [FindPartitions_eq content k hk hmake hT, hleft] at hwin ⊢
  obtain ⟨h1, h2, h3⟩ := emit_tiles content _ hd0 left 0 (by omega) (by omega) hwin
  exact ⟨_, rfl, h1, h2, h3, emit_getLast content _ left 0⟩

/-- C5: every set partition that is not the last entry of the returned list
ends right after a newline: the byte at `Offset + Length - 1` is a newline.
The list is returned for every `intendedWorkers` that `make` accepts as a
length; above `maxSliceLen` the call panics and returns no partition. -/
theorem inner_partitions_end_after_newline (content : List Byte) (k : Int) (hk : 1 ≤ k)
    (hT : content.length < 2 ^ 62) :
    (k ≤ maxSliceLen →
      ∃ ps, (FindPartitions (File.ofBytes content) k).result
          = Outcome.returned (some ps) none ∧
        ∀ (i : Nat) (p : Partition), i + 1 < ps.length → ps[i]? = some (some p) →
          byteAt content (p.Offset + p.Length - 1) = some newline) ∧
    (maxSliceLen < k → (FindPartitions (File.ofBytes content) k).result = Outcome.panicked) := by
  refine ⟨fun hmake => ?_, fun hbig => by rw [FindPartitions_make_panics _ k rfl hbig]⟩
  obtain ⟨left, hleft⟩ := toNat_succ k hk
  obtain ⟨hd0, -⟩ := tdiv_bounds (content.length : Int) k (by omega) hk
  rw [FindPartitions_eq content k hk hmake hT, hleft]
  refine ⟨_, rfl, ?_⟩
  intro i p hi hp
  exact (emit_inner content _ hd0 left 0 (by omega) (by omega) i p hi hp).1

/-- C7: two set partitions at list indices `i < j` do not overlap: the one at
`i` ends (`Offset + Length`) at or before the `Offset` of the one at `j`. The
list is returned for every `intendedWorkers` that `make` accepts as a length;
above `maxSliceLen` the call panics and returns no partition. -/
theorem partitions_do_not_overlap (content : List Byte) (k : Int) (hk : 1 ≤ k)
    (hT : content.length < 2 ^ 62) :
    (k ≤ maxSliceLen →
      ∃ ps, (FindPartitions (File.ofBytes content) k).result
          = Outcome.returned (some ps) none ∧
        ∀ (i j : Nat) (p q : Partition), i < j → ps[i]? = some (some p) →
          ps[j]? = some (some q) → p.Offset + p.Length ≤ q.Offset) ∧
    (maxSliceLen < k → (FindPartitions (File.ofBytes content) k).result = Outcome.panicked) := by
  refine ⟨fun hmake => ?_, fun hbig => by rw [FindPartitions_make_panics _ k rfl hbig]⟩
  obtain ⟨left, hleft⟩ := toNat_succ k hk
  obtain ⟨hd0, -⟩ := tdiv_bounds (content.length : Int) k (by omega) hk
  rw [FindPartitions_eq content k hk hmake hT, hleft]
  exact ⟨_, rfl, emit_ordered content _ hd0 left 0 (by omega) (by omega)⟩

/-- C8: the last entry of the returned list is a set partition that ends at
the end of the file: its `Offset + Length` is `T`. The list is returned for
every `intendedWorkers` that `make` accepts as a length; above `maxSliceLen`
the call panics and returns no list. -/
theorem last_partition_ends_at_size (content : List Byte) (k : Int) (hk : 1 ≤ k)
    (hT : content.length < 2 ^ 62) :
    (k ≤ maxSliceLen →
      ∃ ps, (FindPartitions (File.ofBytes content) k).result
          = Outcome.returned (some ps) none ∧
        ∃ p, ps.getLast? = some (some p) ∧ p.Offset + p.Length = (content.length : Int)) ∧
    (maxSliceLen < k → (FindPartitions (File.ofBytes content) k).result = Outcome.panicked) := by
  refine ⟨fun hmake => ?_, fun hbig => by rw [FindPartitions_make_panics _ k rfl hbig]⟩
  obtain ⟨left, hleft⟩ := toNat_succ k hk
  rw [FindPartitions_eq content k hk hmake hT, hleft]
  exact ⟨_, rfl, emit_getLast content _ left 0⟩

/-- Up to the limit of `make`, the returned list has at least one and at most
`intendedWorkers` entries. -/
theorem partition_count_bounds (content : List Byte) (k : Int) (hk : 1 ≤ k)
    (hmake : k ≤ maxSliceLen) (hT : content.length < 2 ^ 62) :
    ∃ ps, (FindPartitions (File.ofBytes content) k).result = Outcome.returned (some ps) none ∧
      1 ≤ ps.length ∧ (ps.length : Int) ≤ k := by
  obtain ⟨left, hleft⟩ := toNat_succ k hk
  rw [FindPartitions_eq content k hk hmake hT, hleft]
  have := emit_length content (Int.tdiv (content.length : Int) k) left 0
  exact ⟨_, rfl, this.1, by omega⟩

/-- Up to the limit of `make`, for a file of fewer than 50 bytes
`FindPartitions` returns without an error exactly one partition, with `Offset`
0 and the size of the file as `Length`. -/
theorem small_file_single_partition (content : List Byte) (k : Int) (hk : 1 ≤ k)
    (hmake : k ≤ maxSliceLen) (hsmall : content.length < 50) :
    (FindPartitions (File.ofBytes content) k).result
      = Outcome.returned (some [some { Offset := 0, Length := (content.length : Int) }])
          none := by
  obtain ⟨left, hleft⟩ := toNat_succ k hk
  obtain ⟨hd0, -⟩ := tdiv_bounds (content.length : Int) k (by omega) hk
  rw [FindPartitions_eq content k hk hmake (by omega), hleft]
  simp only [emit_small content _ hd0 hsmall left]

/-- C6 (amended): every set partition of the returned list has `Length ≥ 0`,
and `Length > 0` when it is not the last entry of the list. The list is
returned for every `intendedWorkers` that `make` accepts as a length; above
`maxSliceLen` the call panics and returns no partition. -/
theorem partition_lengths_nonneg_inner_positive (content : List Byte) (k : Int) (hk : 1 ≤ k)
    (hT : content.length < 2 ^ 62) :
    (k ≤ maxSliceLen →
      ∃ ps, (FindPartitions (File.ofBytes content) k).result
          = Outcome.returned (some ps) none ∧
        ∀ (i : Nat) (p : Partition), ps[i]? = some (some p) →
          0 ≤ p.Length ∧ (i + 1 < ps.length → 0 < p.Length)) ∧
    (maxSliceLen < k → (FindPartitions (File.ofBytes content) k).result = Outcome.panicked) := by
  refine ⟨fun hmake => ?_, fun hbig => by rw [FindPartitions_make_panics _ k rfl hbig]⟩
  obtain ⟨left, hleft⟩ := toNat_succ k hk
  obtain ⟨hd0, -⟩ := tdiv_bounds (content.length : Int) k (by omega) hk
  rw [FindPartitions_eq content k hk hmake hT, hleft]
  refine ⟨_, rfl, ?_⟩
  intro i p hp
  refine ⟨(emit_bounds content _ hd0 left 0 (by omega) (by omega) p (List.getElem?_mem hp)).2.1, ?_⟩
  intro hi
  have := (emit_inner content _ hd0 left 0 (by omega) (by omega) i p hi hp).2.1
  omega

/-! ## One worker, no worker, and I/O errors -/

/-- C11: with `intendedWorkers = 1`, for a file whose size `Stat` reports (any
size an `int64` holds), `FindPartitions` returns exactly one partition, with
`Offset` 0 and `Length` the size of the file, and the run makes no `ReadAt`
call. -/
theorem one_worker_whole_file (f : File) (hstat : f.statErr = none)
    (hT : f.content.length < 2 ^ 63) :
    FindPartitions f 1
      = ⟨Outcome.returned (some [some { Offset := 0, Length := (f.content.length : Int) }])
          none, []⟩ := by
  have hsub : sub64 (f.content.length : Int) 0 = f.content.length := by
    unfold sub64
    exact wrap64_eq_self _ (by omega) (by omega)
  have hdiv : div64 (f.content.length : Int) 1 = f.content.length := by
    unfold div64
    rw [Int.tdiv_one]
    exact wrap64_eq_self _ (by omega) (by omega)
  have h1 : (1 : Int).toNat = 1 := rfl
  have h10 : ¬ ((1 : Int) = 0) := by decide
  have h1neg : ¬ ((1 : Int) < 0 ∨ maxSliceLen < 1) := by decide
  have hidx : ((0 : Nat) : Int) = 1 - 1 := by decide
  unfold FindPartitions File.Stat
  simp only [hstat, h10, if_false, hdiv]
  unfold findPartitions
  simp only [h1neg, if_false, h1, List.replicate_one]
  simp only [findPartitionsLoop, hidx, if_true, hsub, List.set_cons_zero]

/-- Up to the limit of `make`, for the empty file `FindPartitions` returns
without an error exactly one partition, with `Offset` 0 and `Length` 0. -/
theorem empty_file_single_partition (k : Int) (hk : 1 ≤ k) (hmake : k ≤ maxSliceLen) :
    (FindPartitions (File.ofBytes []) k).result
      = Outcome.returned (some [some { Offset := 0, Length := 0 }]) none := by
  obtain ⟨left, hleft⟩ := toNat_succ k hk
  obtain ⟨hd0, -⟩ := tdiv_bounds (([] : List Byte).length : Int) k (by simp) hk
  rw [FindPartitions_eq [] k hk hmake (by simp), hleft]
  simp only [emit_small [] _ hd0 (by simp) left]
  rfl

/-- C13 (amended): for a file whose size `Stat` reports and any
`intendedWorkers ≤ 0`, `FindPartitions` returns nothing, neither an error nor a
list: the call panics (in the division for 0, in `make` for a negative count)
before any `ReadAt`. -/
theorem no_worker_panics (f : File) (k : Int) (hstat : f.statErr = none) (hk : k ≤ 0) :
    FindPartitions f k = ⟨Outcome.panicked, []⟩ := by
  by_cases h0 : k = 0
  · simp [FindPartitions, File.Stat, hstat, h0]
  · have hneg : k < 0 := by omega
    simp [FindPartitions, File.Stat, hstat, h0, findPartitions, hneg]

/-- A read of the loop that fails with an error other than `io.EOF` ends the
loop: the error is returned, with a `nil` slice. -/
theorem findPartitionsLoop_read_error (file : File) (T ps k : Int) :
    ∀ (left idx : Nat) (partitions : List (Option Partition)) (cs ce off : Int) (err : Error),
      off ∈ (findPartitionsLoop file T ps k left idx partitions cs ce).reads →
      (file.ReadAt lookahead off).2 = some err → err ≠ Error.EOF →
      (findPartitionsLoop file T ps k left idx partitions cs ce).result
        = Outcome.returned none (some err) := by
  intro left
  induction left with
  | zero =>
    intro idx partitions cs ce off err hmem
    simp [findPartitionsLoop] at hmem
  | succ left ih =>
    intro idx partitions cs ce off err hmem hread hne
    unfold findPartitionsLoop at hmem ⊢
    by_cases hidx : (idx : Int) = k - 1
    · simp only [hidx, if_true] at hmem ⊢
      exact ih _ _ _ _ off err hmem hread hne
    · simp only [hidx, if_false] at hmem ⊢
      rcases hr : file.ReadAt lookahead ce with ⟨buf, e⟩
      simp only [hr] at hmem ⊢
      cases e with
      | none =>
        simp only at hmem ⊢
        cases hs : scan buf 0 with
        | none =>
          simp only [hs, Run.afterRead, List.mem_cons] at hmem ⊢
          rcases hmem with h | h
          · subst h
            rw [hr] at hread
            simp at hread
          · exact ih _ _ _ _ off err h hread hne
        | some skip =>
          simp only [hs, Run.afterRead, List.mem_cons] at hmem ⊢
          rcases hmem with h | h
          · subst h
            rw [hr] at hread
            simp at hread
          · exact ih _ _ _ _ off err h hread hne
      | some e =>
        cases e with
        | EOF =>
          simp only [List.mem_singleton] at hmem
          subst hmem
          rw [hr] at hread
          simp only [Option.some.injEq] at hread
          exact absurd hread.symm hne
        | negativeOffset =>
          simp only [List.mem_singleton] at hmem ⊢
          subst hmem
          rw [hr] at hread
          simp only [Option.some.injEq] at hread
          rw [hread]
        | other code =>
          simp only [List.mem_singleton] at hmem ⊢
          subst hmem
          rw [hr] at hread
          simp only [Option.some.injEq] at hread
          rw [hread]

/-- The loop returns a list without an error, or an error without a list. -/
theorem findPartitionsLoop_shape (file : File) (T ps k : Int) :
    ∀ (left idx : Nat) (partitions : List (Option Partition)) (cs ce : Int),
      (∃ l, (findPartitionsLoop file T ps k left idx partitions cs ce).result
          = Outcome.returned (some l) none) ∨
      (∃ err, (findPartitionsLoop file T ps k left idx partitions cs ce).result
          = Outcome.returned none (some err)) := by
  intro left
  induction left with
  | zero =>
    intro idx partitions cs ce
    exact Or.inl ⟨partitions, by simp [findPartitionsLoop]⟩
  | succ left ih =>
    intro idx partitions cs ce
    unfold findPartitionsLoop
    by_cases hidx : (idx : Int) = k - 1
    · simp only [hidx, if_true]
      exact ih _ _ _ _
    · simp only [hidx, if_false]
      rcases hr : file.ReadAt lookahead ce with ⟨buf, e⟩
      cases e with
      | none =>
        simp only
        cases hs : scan buf 0 with
        | none => simp only [Run.afterRead]; exact ih _ _ _ _
        | some skip => simp only [Run.afterRead]; exact ih _ _ _ _
      | some e =>
        cases e with
        | EOF => exact Or.inl ⟨_, rfl⟩
        | negativeOffset => exact Or.inr ⟨_, rfl⟩
        | other code => exact Or.inr ⟨_, rfl⟩

/-- C14: when `Stat` fails, `FindPartitions` returns its error and a `nil`
list; when a lookahead read of the run fails with an error other than `io.EOF`,
it returns that error and a `nil` list; and it never returns both a list and an
error. -/
theorem errors_are_returned_alone (f : File) (k : Int) :
    (∀ e, f.statErr = some e → FindPartitions f k = ⟨Outcome.returned none (some e), []⟩) ∧
    (∀ off ∈ (FindPartitions f k).reads, ∀ err, (f.ReadAt lookahead off).2 = some err →
      err ≠ Error.EOF → (FindPartitions f k).result = Outcome.returned none (some err)) ∧
    (∀ l err, (FindPartitions f k).result ≠ Outcome.returned (some l) (some err)) := by
  refine ⟨?_, ?_, ?_⟩
  · intro e he
    simp only [FindPartitions, File.Stat, he]
  · intro off hmem err hread hne
    unfold FindPartitions File.Stat at hmem ⊢
    cases hs : f.statErr with
    | some e => simp [hs] at hmem
    | none =>
      simp only [hs] at hmem ⊢
      by_cases h0 : k = 0
      · simp [h0] at hmem
      · simp only [h0, if_false] at hmem ⊢
        unfold findPartitions at hmem ⊢
        by_cases hneg : k < 0 ∨ maxSliceLen < k
        · simp [hneg] at hmem
        · simp only [hneg, if_false] at hmem ⊢
          exact findPartitionsLoop_read_error f _ _ k _ _ _ _ _ off err hmem hread hne
  · intro l err
    unfold FindPartitions File.Stat
    cases hs : f.statErr with
    | some e => simp
    | none =>
      simp only
      by_cases h0 : k = 0
      · simp [h0]
      · simp only [h0, if_false]
        unfold findPartitions
        by_cases hneg : k < 0 ∨ maxSliceLen < k
        · simp [hneg]
        · simp only [hneg, if_false]
          rcases findPartitionsLoop_shape f (f.content.length : Int)
            (div64 (f.content.length : Int) k) k k.toNat 0 (List.replicate k.toNat none) 0
            (div64 (f.content.length : Int) k) with ⟨l2, h⟩ | ⟨e2, h⟩
          · rw [h]; simp
          · rw [h]; simp

/-! ## Index by index -/

/-- The scan stops at the first newline of the buffer. -/
theorem scan_first (buf : List Byte) : ∀ (skip p : Nat), buf[p]? = some newline →
    (∀ j, j < p → buf[j]? ≠ some newline) → scan buf skip = some (skip + p + 1) := by
  induction buf with
  | nil => intro skip p h; simp at h
  | cons b rest ih =>
    intro skip p h hfirst
    unfold scan
    cases p with
    | zero =>
      simp only [List.getElem?_cons_zero, Option.some.injEq] at h
      simp [h]
    | succ p =>
      have hb : ¬ (b = newline) := by
        have := hfirst 0 (by omega)
        simpa using this
      rw [List.getElem?_cons_succ] at h
      rw [if_neg hb, ih (skip + 1) p h (fun j hj => by
        have := hfirst (j + 1) (by omega)
        rwa [List.getElem?_cons_succ] at this)]
      congr 1
      omega

theorem emit_head (content : List Byte) (ps : Int) (left : Nat) (cs : Int) (q : Partition)
    (h : (emit content ps (left + 1) cs)[0]? = some (some q)) : q.Offset = cs := by
  cases left with
  | zero =>
    simp only [emit, List.getElem?_cons_zero, Option.some.injEq] at h
    rw [← h]
  | succ left =>
    rcases emit_cases content ps left cs with ⟨-, he, -⟩ | ⟨-, skip, -, he, -⟩ | ⟨-, -, he, -⟩
    · rw [he] at h
      simp only [List.getElem?_cons_zero, Option.some.injEq] at h
      rw [← h]
    · rw [he] at h
      simp only [List.getElem?_cons_zero, Option.some.injEq] at h
      rw [← h]
    · rw [he] at h
      simp at h

theorem probes_head (content : List Byte) (ps : Int) (left : Nat) (cs off : Int)
    (h : (probes content ps (left + 1) cs)[0]? = some off) : off = cs + ps := by
  cases left with
  | zero => simp [probes] at h
  | succ left =>
    rcases emit_cases content ps left cs with ⟨-, -, hp⟩ | ⟨-, skip, -, -, hp⟩ | ⟨-, -, -, hp⟩ <;>
    · rw [hp] at h
      simp only [List.getElem?_cons_zero, Option.some.injEq] at h
      omega

theorem probes_lower (content : List Byte) (ps : Int) (hps : 0 ≤ ps) :
    ∀ (left : Nat) (cs : Int), ∀ off ∈ probes content ps (left + 1) cs, cs + ps ≤ off := by
  intro left
  induction left with
  | zero => intro cs off h; simp [probes] at h
  | succ left ih =>
    intro cs off h
    rcases emit_cases content ps left cs with ⟨-, -, hp⟩ | ⟨-, skip, -, -, hp⟩ | ⟨-, -, -, hp⟩
    · rw [hp] at h
      simp only [List.mem_singleton] at h
      omega
    · rw [hp] at h
      simp only [List.mem_cons] at h
      rcases h with h | h
      · omega
      · have := ih (cs + ps + (skip : Int)) off h
        omega
    · rw [hp] at h
      simp only [List.mem_cons] at h
      rcases h with h | h
      · omega
      · have := ih (cs + ps) off h
        omega

/-- When every read is a full window with a newline, no index is cut off and
every entry is set. -/
theorem emit_full (content : List Byte) (ps : Int) :
    ∀ (left : Nat) (cs : Int),
      (∀ off ∈ probes content ps (left + 1) cs,
        off + 50 ≤ (content.length : Int) ∧ newline ∈ window content off) →
      (emit content ps (left + 1) cs).length = left + 1 ∧
        ∀ e ∈ emit content ps (left + 1) cs, e ≠ none := by
  intro left
  induction left with
  | zero => intro cs _; simp [emit]
  | succ left ih =>
    intro cs hwin
    rcases emit_cases content ps left cs with ⟨heof, -, hp⟩ | ⟨-, skip, -, he, hp⟩ |
      ⟨-, hs, -, hp⟩
    · exfalso
      have := (hwin (cs + ps) (by rw [hp]; simp)).1
      omega
    · rw [hp] at hwin
      obtain ⟨h1, h2⟩ := ih (cs + ps + (skip : Int))
        (fun off hoff => hwin off (List.mem_cons_of_mem _ hoff))
      rw [he]
      refine ⟨by simp only [List.length_cons]; omega, ?_⟩
      intro e hmem
      simp only [List.mem_cons] at hmem
      rcases hmem with hmem | hmem
      · rw [hmem]; simp
      · exact h2 e hmem
    · exfalso
      rw [hp] at hwin
      exact scan_none _ 0 hs (hwin (cs + ps) (List.mem_cons_self _ _)).2

/-- C15 (amended): when every nominal boundary the loop visits has its whole
50-byte window inside the file (`off + 50 ≤ T`) and a newline in that window,
`FindPartitions` returns exactly `intendedWorkers` entries, all of them set.
This is so for every `intendedWorkers` that `make` accepts as a length; above
`maxSliceLen` the call panics. -/
theorem full_windows_give_all_workers (content : List Byte) (k : Int) (hk : 1 ≤ k)
    (hT : content.length < 2 ^ 62)
    (hwin : ∀ off ∈ (FindPartitions (File.ofBytes content) k).reads,
      off + 50 ≤ (content.length : Int) ∧ newline ∈ window content off) :
    (k ≤ maxSliceLen →
      ∃ l, (FindPartitions (File.ofBytes content) k).result = Outcome.returned (some l) none ∧
        (l.length : Int) = k ∧ ∀ e ∈ l, e ≠ none) ∧
    (maxSliceLen < k → (FindPartitions (File.ofBytes content) k).result = Outcome.panicked) := by
  refine ⟨fun hmake => ?_, fun hbig => by rw [FindPartitions_make_panics _ k rfl hbig]⟩
  obtain ⟨left, hleft⟩ := toNat_succ k hk
  rw [FindPartitions_eq content k hk hmake hT, hleft] at hwin ⊢
  obtain ⟨h1, h2⟩ := emit_full content _ left 0 hwin
  exact ⟨_, rfl, by omega, h2⟩

/-- The index whose read is the `i`-th read of the run, when that read is a
full window whose first newline is at position `p`. -/
theorem emit_step (content : List Byte) (ps : Int) :
    ∀ (left : Nat) (cs : Int) (i : Nat) (off : Int) (p : Nat),
      (probes content ps (left + 1) cs)[i]? = some off →
      off + 50 ≤ (content.length : Int) →
      (window content off)[p]? = some newline →
      (∀ j, j < p → (window content off)[j]? ≠ some newline) →
      (emit content ps (left + 1) cs)[i]?
          = some (some { Offset := off - ps, Length := ps + (p : Int) + 1 }) ∧
        (∀ q, (emit content ps (left + 1) cs)[i + 1]? = some (some q) →
          q.Offset = off + (p : Int) + 1) ∧
        (∀ off2, (probes content ps (left + 1) cs)[i + 1]? = some off2 →
          off2 = off + (p : Int) + 1 + ps) := by
  intro left
  induction left with
  | zero => intro cs i off p h; simp [probes] at h
  | succ left ih =>
    intro cs i off p hread hfull hp hfirst
    rcases emit_cases content ps left cs with ⟨heof, -, hpr⟩ | ⟨-, skip, hs, he, hpr⟩ |
      ⟨-, hs, he, hpr⟩
    · exfalso
      rw [hpr] at hread
      cases i with
      | zero =>
        simp only [List.getElem?_cons_zero, Option.some.injEq] at hread
        omega
      | succ i => simp at hread
    · rw [hpr] at hread
      rw [he, hpr]
      cases i with
      | zero =>
        simp only [List.getElem?_cons_zero, Option.some.injEq] at hread
        subst hread
        have hsk := scan_first _ 0 p hp hfirst
        rw [hs] at hsk
        simp only [Option.some.injEq] at hsk
        subst hsk
        refine ⟨?_, ?_, ?_⟩
        · simp only [List.getElem?_cons_zero, Option.some.injEq, Partition.mk.injEq]
          constructor <;> push_cast <;> omega
        · intro q hq
          rw [List.getElem?_cons_succ] at hq
          have := emit_head content ps left _ q hq
          rw [this]
          push_cast
          omega
        · intro off2 h2
          rw [List.getElem?_cons_succ] at h2
          have := probes_head content ps left _ off2 h2
          rw [this]
          push_cast
          omega
      | succ i =>
        rw [List.getElem?_cons_succ] at hread
        simp only [List.getElem?_cons_succ]
        exact ih _ i off p hread hfull hp hfirst
    · rw [hpr] at hread
      rw [he, hpr]
      cases i with
      | zero =>
        exfalso
        simp only [List.getElem?_cons_zero, Option.some.injEq] at hread
        subst hread
        have hsk := scan_first _ 0 p hp hfirst
        rw [hs] at hsk
        simp at hsk
      | succ i =>
        rw [List.getElem?_cons_succ] at hread
        simp only [List.getElem?_cons_succ]
        exact ih _ i off p hread hfull hp hfirst

/-- The index whose read is the `i`-th read of the run, when that read is a
full window without any newline. -/
theorem emit_gap (content : List Byte) (ps : Int) (hps : 0 ≤ ps) :
    ∀ (left : Nat) (cs : Int), 0 ≤ cs → cs ≤ (content.length : Int) →
      ∀ (i : Nat) (off : Int),
      (probes content ps (left + 1) cs)[i]? = some off →
      off + 50 ≤ (content.length : Int) →
      newline ∉ window content off →
      (emit content ps (left + 1) cs)[i]? = some none ∧
        i + 1 < (emit content ps (left + 1) cs).length ∧
        (∀ q, (emit content ps (left + 1) cs)[i + 1]? = some (some q) → q.Offset = off) ∧
        (∀ off2, (probes content ps (left + 1) cs)[i + 1]? = some off2 → off2 = off + ps) ∧
        (∀ (j : Nat) (q : Partition), (emit content ps (left + 1) cs)[j]? = some (some q) →
          q.Offset + q.Length ≤ off - ps ∨ off ≤ q.Offset) := by
  intro left
  induction left with
  | zero => intro cs _ _ i off h; simp [probes] at h
  | succ left ih =>
    intro cs h0 hT i off hread hfull hno
    rcases emit_cases content ps left cs with ⟨heof, -, hpr⟩ | ⟨hf, skip, hs, he, hpr⟩ |
      ⟨hf, hs, he, hpr⟩
    · exfalso
      rw [hpr] at hread
      cases i with
      | zero =>
        simp only [List.getElem?_cons_zero, Option.some.injEq] at hread
        omega
      | succ i => simp at hread
    · obtain ⟨h1, h2, -⟩ := scan_window content (cs + ps) skip (by omega) hf hs
      rw [hpr] at hread
      cases i with
      | zero =>
        exfalso
        simp only [List.getElem?_cons_zero, Option.some.injEq] at hread
        subst hread
        exact hno (List.getElem?_mem (scan_some _ 0 skip hs).2.2.1)
      | succ i =>
        rw [List.getElem?_cons_succ] at hread
        obtain ⟨g1, g2, g3, g4, g5⟩ := ih (cs + ps + (skip : Int)) (by omega) (by omega) i off
          hread hfull hno
        have hlow := probes_lower content ps hps left _ off (List.getElem?_mem hread)
        rw [he, hpr]
        simp only [List.getElem?_cons_succ, List.length_cons]
        refine ⟨g1, by omega, g3, g4, ?_⟩
        intro j q hq
        cases j with
        | zero =>
          simp only [List.getElem?_cons_zero, Option.some.injEq] at hq
          subst hq
          left
          simp only
          omega
        | succ j =>
          rw [List.getElem?_cons_succ] at hq
          exact g5 j q hq
    · rw [hpr] at hread
      cases i with
      | zero =>
        simp only [List.getElem?_cons_zero, Option.some.injEq] at hread
        subst hread
        have hlen := emit_length content ps left (cs + ps)
        rw [he, hpr]
        simp only [List.getElem?_cons_succ, List.length_cons, List.getElem?_cons_zero]
        refine ⟨trivial, by omega, ?_, ?_, ?_⟩
        · intro q hq
          exact emit_head content ps left _ q hq
        · intro off2 h2
          exact probes_head content ps left _ off2 h2
        · intro j q hq
          cases j with
          | zero => simp at hq
          | succ j =>
            rw [List.getElem?_cons_succ] at hq
            right
            exact (emit_bounds content ps hps left (cs + ps) (by omega) (by omega) q
              (List.getElem?_mem hq)).1
      | succ i =>
        rw [List.getElem?_cons_succ] at hread
        obtain ⟨g1, g2, g3, g4, g5⟩ := ih (cs + ps) (by omega) (by omega) i off hread hfull hno
        rw [he, hpr]
        simp only [List.getElem?_cons_succ, List.length_cons]
        refine ⟨g1, by omega, g3, g4, ?_⟩
        intro j q hq
        cases j with
        | zero => simp at hq
        | succ j =>
          rw [List.getElem?_cons_succ] at hq
          exact g5 j q hq

/-- When no index is cut off and every entry is set, every index before the
last one moved the start by at least `ps + 1`. -/
theorem emit_last_offset (content : List Byte) (ps : Int) :
    ∀ (left : Nat) (cs : Int), (emit content ps (left + 1) cs).length = left + 1 →
      (∀ e ∈ emit content ps (left + 1) cs, e ≠ none) →
      ∀ p, (emit content ps (left + 1) cs).getLast? = some (some p) →
        cs + (left : Int) * (ps + 1) ≤ p.Offset := by
  intro left
  induction left with
  | zero =>
    intro cs _ _ p hp
    simp only [emit, List.getLast?_singleton, Option.some.injEq] at hp
    subst hp
    simp
  | succ left ih =>
    intro cs hlen hset p hp
    have e : ((left + 1 : Nat) : Int) * (ps + 1) = (left : Int) * (ps + 1) + (ps + 1) := by
      push_cast
      ring
    rcases emit_cases content ps left cs with ⟨-, he, -⟩ | ⟨-, skip, hs, he, -⟩ | ⟨-, -, he, -⟩
    · rw [he] at hlen
      simp at hlen
    · have hskip := (scan_some _ 0 skip hs).1
      rw [he] at hlen hset hp
      simp only [List.length_cons] at hlen
      have hne : emit content ps (left + 1) (cs + ps + (skip : Int)) ≠ [] := by
        intro h
        rw [h] at hlen
        simp at hlen
      obtain ⟨b, t, hbt⟩ := List.exists_cons_of_ne_nil hne
      rw [hbt, List.getLast?_cons_cons, ← hbt] at hp
      have := ih (cs + ps + (skip : Int)) (by omega)
        (fun x hx => hset x (List.mem_cons_of_mem _ hx)) p hp
      rw [e]
      omega
    · exfalso
      rw [he] at hset
      exact hset none (List.mem_cons_self _ _) rfl

/-- When no index is cut off, the read of the last index but one was a full
window. -/
theorem emit_all_indices (content : List Byte) (ps : Int) :
    ∀ (left : Nat) (cs : Int), (emit content ps (left + 2) cs).length = left + 2 →
      cs + ((left : Int) + 1) * ps + 50 ≤ (content.length : Int) := by
  intro left
  induction left with
  | zero =>
    intro cs hlen
    rcases emit_cases content ps 0 cs with ⟨-, he, -⟩ | ⟨hf, -⟩ | ⟨hf, -⟩
    · rw [he] at hlen
      simp at hlen
    · simp only [Nat.cast_zero, zero_add, one_mul]
      exact hf
    · simp only [Nat.cast_zero, zero_add, one_mul]
      exact hf
  | succ left ih =>
    intro cs hlen
    have e : (((left + 1 : Nat) : Int) + 1) * ps = ((left : Int) + 1) * ps + ps := by
      push_cast
      ring
    rcases emit_cases content ps (left + 1) cs with ⟨-, he, -⟩ | ⟨-, skip, -, he, -⟩ |
      ⟨-, -, he, -⟩
    · rw [he] at hlen
      simp at hlen
    · rw [he] at hlen
      simp only [List.length_cons] at hlen
      have := ih (cs + ps + (skip : Int)) (by simpa using hlen)
      rw [e]
      omega
    · rw [he] at hlen
      simp only [List.length_cons] at hlen
      have := ih (cs + ps) (by simpa using hlen)
      rw [e]
      omega

/-! ## What each index does

The `i`-th read of a run is the read of index `i`: every index before the last
one reads once, at its `currentEnd = currentStart + partitionSize`, and the loop
ends at the first read that is not a full window. -/

/-- C16: for an index whose read (the `i`-th read of the run, at `off`) is a
full window with its first newline at position `p`, the entry at that index is
`{Offset: off - partitionSize, Length: partitionSize + p + 1}` (its
`currentStart` is `off - partitionSize`), the next index starts at
`off + p + 1` (the `Offset` of its entry when set, and its read is at
`off + p + 1 + partitionSize`), and the `Length` is between `partitionSize + 1`
and `partitionSize + 50`. -/
theorem found_newline_sets_partition (content : List Byte) (k : Int) (hk : 1 ≤ k)
    (hT : content.length < 2 ^ 62) (i : Nat) (off : Int) (p : Nat)
    (hread : (FindPartitions (File.ofBytes content) k).reads[i]? = some off)
    (hfull : off + 50 ≤ (content.length : Int))
    (hp : (window content off)[p]? = some newline)
    (hfirst : ∀ j, j < p → (window content off)[j]? ≠ some newline) :
    ∃ l e, (FindPartitions (File.ofBytes content) k).result = Outcome.returned (some l) none ∧
      l[i]? = some (some e) ∧
      e.Offset = off - Int.tdiv (content.length : Int) k ∧
      e.Length = Int.tdiv (content.length : Int) k + (p : Int) + 1 ∧
      (∀ q, l[i + 1]? = some (some q) → q.Offset = off + (p : Int) + 1) ∧
      (∀ off2, (FindPartitions (File.ofBytes content) k).reads[i + 1]? = some off2 →
        off2 = off + (p : Int) + 1 + Int.tdiv (content.length : Int) k) ∧
      Int.tdiv (content.length : Int) k + 1 ≤ e.Length ∧
      e.Length ≤ Int.tdiv (content.length : Int) k + 50 := by
  have hmake : k ≤ maxSliceLen := by
    by_contra hbig
    rw [FindPartitions_make_panics _ k rfl (by omega)] at hread
    simp at hread
  obtain ⟨left, hleft⟩ := toNat_succ k hk
  rw [FindPartitions_eq content k hk hmake hT, hleft] at hread ⊢
  obtain ⟨h1, h2, h3⟩ := emit_step content _ left 0 i off p hread hfull hp hfirst
  have hp50 : p < 50 := by
    have h := (List.getElem?_eq_some_iff.mp hp).1
    have hw : (window content off).length ≤ 50 := by
      unfold window
      simp only [List.length_take, lookahead]
      omega
    omega
  exact ⟨_, _, rfl, h1, rfl, rfl, h2, h3, by simp only; omega, by simp only; omega⟩

/-- C17: for an index whose read (the `i`-th read of the run, at `off`) is a
full window without any newline, `FindPartitions` still returns a list and no
error, the slot at that index is unset, there is a next index and it starts at
the unadjusted `off` (the `Offset` of its entry when set, and its read is at
`off + partitionSize`), and no returned partition meets the bytes from
`off - partitionSize` (the `currentStart` of the index) up to `off`. -/
theorem missing_newline_leaves_gap (content : List Byte) (k : Int) (hk : 1 ≤ k)
    (hT : content.length < 2 ^ 62) (i : Nat) (off : Int)
    (hread : (FindPartitions (File.ofBytes content) k).reads[i]? = some off)
    (hfull : off + 50 ≤ (content.length : Int))
    (hno : newline ∉ window content off) :
    ∃ l, (FindPartitions (File.ofBytes content) k).result = Outcome.returned (some l) none ∧
      l[i]? = some none ∧ i + 1 < l.length ∧
      (∀ q, l[i + 1]? = some (some q) → q.Offset = off) ∧
      (∀ off2, (FindPartitions (File.ofBytes content) k).reads[i + 1]? = some off2 →
        off2 = off + Int.tdiv (content.length : Int) k) ∧
      (∀ (j : Nat) (q : Partition), l[j]? = some (some q) →
        q.Offset + q.Length ≤ off - Int.tdiv (content.length : Int) k ∨ off ≤ q.Offset) := by
  have hmake : k ≤ maxSliceLen := by
    by_contra hbig
    rw [FindPartitions_make_panics _ k rfl (by omega)] at hread
    simp at hread
  obtain ⟨left, hleft⟩ := toNat_succ k hk
  obtain ⟨hd0, -⟩ := tdiv_bounds (content.length : Int) k (by omega) hk
  rw [FindPartitions_eq content k hk hmake hT, hleft] at hread ⊢
  exact ⟨_, rfl, emit_gap content _ hd0 left 0 (by omega) (by omega) i off hread hfull hno⟩

/-- C18: when `FindPartitions` returns `intendedWorkers` entries and all of them
are set, the `Length` of the last partition is at most `partitionSize = T / k`
and is smaller than the `Length` of every other returned partition. -/
theorem last_partition_is_smallest (content : List Byte) (k : Int) (hk : 1 ≤ k)
    (hT : content.length < 2 ^ 62) (l : List (Option Partition))
    (hres : (FindPartitions (File.ofBytes content) k).result = Outcome.returned (some l) none)
    (hlen : (l.length : Int) = k) (hset : ∀ e ∈ l, e ≠ none) :
    ∃ last, l.getLast? = some (some last) ∧
      last.Length ≤ Int.tdiv (content.length : Int) k ∧
      ∀ (i : Nat) (p : Partition), i + 1 < l.length → l[i]? = some (some p) →
        last.Length < p.Length := by
  have hmake : k ≤ maxSliceLen := by
    by_contra hbig
    rw [FindPartitions_make_panics _ k rfl (by omega)] at hres
    cases hres
  obtain ⟨left, hleft⟩ := toNat_succ k hk
  obtain ⟨hd0, -⟩ := tdiv_bounds (content.length : Int) k (by omega) hk
  rw [FindPartitions_eq content k hk hmake hT, hleft] at hres
  simp only [Outcome.returned.injEq, Option.some.injEq, and_true] at hres
  subst hres
  obtain ⟨last, hlast, hend⟩ := emit_getLast content (Int.tdiv (content.length : Int) k) left 0
  have hoff := emit_last_offset content _ left 0 (by omega) hset last hlast
  have hkl : k = (left : Int) + 1 := by omega
  have hmod : (content.length : Int) < k * Int.tdiv (content.length : Int) k + k := by
    rw [Int.tdiv_eq_ediv (by omega) (by omega)]
    have h1 := Int.ediv_add_emod (content.length : Int) k
    have h2 := Int.emod_lt_of_pos (content.length : Int) (show (0 : Int) < k by omega)
    omega
  have e1 : k * Int.tdiv (content.length : Int) k
      = (left : Int) * Int.tdiv (content.length : Int) k + Int.tdiv (content.length : Int) k := by
    rw [hkl]
    ring
  have e2 : (left : Int) * (Int.tdiv (content.length : Int) k + 1)
      = (left : Int) * Int.tdiv (content.length : Int) k + (left : Int) := by
    ring
  have hsmall : last.Length ≤ Int.tdiv (content.length : Int) k := by
    rw [e1] at hmod
    rw [e2] at hoff
    omega
  refine ⟨last, hlast, hsmall, ?_⟩
  intro i p hi hp
  have := (emit_inner content _ hd0 left 0 (by omega) (by omega) i p hi hp).2.1
  omega

/-- C19: every set partition of the returned list lies inside the file:
`0 ≤ Offset`, `0 ≤ Length` and `Offset + Length ≤ T`. The list is returned for
every `intendedWorkers` that `make` accepts as a length; above `maxSliceLen`
the call panics and returns no partition. -/
theorem partitions_inside_file (content : List Byte) (k : Int) (hk : 1 ≤ k)
    (hT : content.length < 2 ^ 62) :
    (k ≤ maxSliceLen →
      ∃ l, (FindPartitions (File.ofBytes content) k).result = Outcome.returned (some l) none ∧
        ∀ (i : Nat) (p : Partition), l[i]? = some (some p) →
          0 ≤ p.Offset ∧ 0 ≤ p.Length ∧ p.Offset + p.Length ≤ (content.length : Int)) ∧
    (maxSliceLen < k → (FindPartitions (File.ofBytes content) k).result = Outcome.panicked) := by
  refine ⟨fun hmake => ?_, fun hbig => by rw [FindPartitions_make_panics _ k rfl hbig]⟩
  obtain ⟨left, hleft⟩ := toNat_succ k hk
  obtain ⟨hd0, -⟩ := tdiv_bounds (content.length : Int) k (by omega) hk
  rw [FindPartitions_eq content k hk hmake hT, hleft]
  refine ⟨_, rfl, ?_⟩
  intro i p hp
  exact emit_bounds content _ hd0 left 0 (by omega) (by omega) p (List.getElem?_mem hp)

/-- C20: with `intendedWorkers ≥ 2` and `partitionSize = T / k`, when
`FindPartitions` returns `intendedWorkers` entries the file has at least
`(k - 1) * partitionSize + 50` bytes; so a file of 100 bytes with 4 workers
gives fewer than 4 entries. The list is returned for every `intendedWorkers`
that `make` accepts as a length; above `maxSliceLen` the call panics and
returns no entry. -/
theorem all_workers_need_room (content : List Byte) (k : Int) (hk : 2 ≤ k)
    (hT : content.length < 2 ^ 62) :
    (k ≤ maxSliceLen →
      ∃ l, (FindPartitions (File.ofBytes content) k).result = Outcome.returned (some l) none ∧
        ((l.length : Int) = k →
          (k - 1) * Int.tdiv (content.length : Int) k + 50 ≤ (content.length : Int)) ∧
        (content.length = 100 → k = 4 → l.length < 4)) ∧
    (maxSliceLen < k → (FindPartitions (File.ofBytes content) k).result = Outcome.panicked) := by
  refine ⟨fun hmake => ?_, fun hbig => by rw [FindPartitions_make_panics _ k rfl hbig]⟩
  obtain ⟨left, hleft⟩ : ∃ left, k.toNat = left + 2 := ⟨k.toNat - 2, by omega⟩
  rw [FindPartitions_eq content k (by omega) hmake hT, hleft]
  have hroom : ((emit content (Int.tdiv (content.length : Int) k) (left + 2) 0).length : Int) = k →
      (k - 1) * Int.tdiv (content.length : Int) k + 50 ≤ (content.length : Int) := by
    intro hlen
    have := emit_all_indices content (Int.tdiv (content.length : Int) k) left 0 (by omega)
    have hkl : k - 1 = (left : Int) + 1 := by omega
    rw [hkl]
    omega
  refine ⟨_, rfl, hroom, ?_⟩
  intro h100 h4
  have hle : (emit content (Int.tdiv (content.length : Int) k) (left + 2) 0).length ≤ left + 2 :=
    (emit_length content (Int.tdiv (content.length : Int) k) (left + 1) 0).2
  by_contra hcon
  have hlen : ((emit content (Int.tdiv (content.length : Int) k) (left + 2) 0).length : Int)
      = k := by omega
  have h := hroom hlen
  have hc : (content.length : Int) = 100 := by omega
  rw [hc, h4] at h
  have hdiv : Int.tdiv 100 4 = 25 := by decide
  rw [hdiv] at h
  omega

/-! ## Concrete runs -/

set_option maxRecDepth 100000

theorem partitions_tile_file_witness :
    (1 : Int) ≤ 4 ∧ linesFile.length < 2 ^ 62 ∧ (4 : Int) ≤ maxSliceLen ∧
    (∀ off ∈ (FindPartitions (File.ofBytes linesFile) 4).reads,
      off + 50 ≤ (linesFile.length : Int) → newline ∈ window linesFile off) ∧
    ∃ ps, (FindPartitions (File.ofBytes linesFile) 4).result = Outcome.returned (some ps) none ∧
      (∀ e ∈ ps, e ≠ none) ∧
      (∃ p, ps[0]? = some (some p) ∧ p.Offset = 0) ∧
      (∀ (i : Nat) (p q : Partition), ps[i]? = some (some p) → ps[i + 1]? = some (some q) →
        q.Offset = p.Offset + p.Length) ∧
      (∃ p, ps.getLast? = some (some p) ∧ p.Offset + p.Length = (linesFile.length : Int)) :=
  ⟨by decide, by decide, by decide, by decide,
    (partitions_tile_file linesFile 4 (by decide) (by decide) (by decide)).1 (by decide)⟩

theorem inner_partitions_end_after_newline_witness :
    (1 : Int) ≤ 4 ∧ linesFile.length < 2 ^ 62 ∧ (4 : Int) ≤ maxSliceLen ∧
    ∃ ps, (FindPartitions (File.ofBytes linesFile) 4).result = Outcome.returned (some ps) none ∧
      ∀ (i : Nat) (p : Partition), i + 1 < ps.length → ps[i]? = some (some p) →
        byteAt linesFile (p.Offset + p.Length - 1) = some newline :=
  ⟨by decide, by decide, by decide,
    (inner_partitions_end_after_newline linesFile 4 (by decide) (by decide)).1 (by decide)⟩

theorem partitions_do_not_overlap_witness :
    (1 : Int) ≤ 3 ∧ linesFile.length < 2 ^ 62 ∧ (3 : Int) ≤ maxSliceLen ∧
    ∃ ps, (FindPartitions (File.ofBytes linesFile) 3).result = Outcome.returned (some ps) none ∧
      ∀ (i j : Nat) (p q : Partition), i < j → ps[i]? = some (some p) →
        ps[j]? = some (some q) → p.Offset + p.Length ≤ q.Offset :=
  ⟨by decide, by decide, by decide,
    (partitions_do_not_overlap linesFile 3 (by decide) (by decide)).1 (by decide)⟩

theorem last_partition_ends_at_size_witness :
    (1 : Int) ≤ 2 ∧ longLineFile.length < 2 ^ 62 ∧ (2 : Int) ≤ maxSliceLen ∧
    ∃ ps, (FindPartitions (File.ofBytes longLineFile) 2).result
        = Outcome.returned (some ps) none ∧
      ∃ p, ps.getLast? = some (some p) ∧ p.Offset + p.Length = (longLineFile.length : Int) :=
  ⟨by decide, by decide, by decide,
    (last_partition_ends_at_size longLineFile 2 (by decide) (by decide)).1 (by decide)⟩

/-- A file of 10 bytes and 50 workers give one partition, which covers the
bytes from 0 up to 10. -/
theorem small_file_single_partition_witness :
    (1 : Int) ≤ 50 ∧ (50 : Int) ≤ maxSliceLen ∧ tenByteFile.length < 50 ∧
    (FindPartitions (File.ofBytes tenByteFile) 50).result
      = Outcome.returned (some [some { Offset := 0, Length := 10 }]) none :=
  ⟨by decide, by decide, by decide,
    small_file_single_partition tenByteFile 50 (by decide) (by decide) (by decide)⟩

/-- C9 at a file of 100 bytes and `2 ^ 60` workers: `make` refuses the length,
the call panics before any read, and no list is returned. -/
theorem many_workers_return_no_list :
    (1 : Int) ≤ 1152921504606846976 ∧
    FindPartitions (File.ofBytes oneLineFile) 1152921504606846976 = ⟨Outcome.panicked, []⟩ ∧
    ¬ ∃ l, (FindPartitions (File.ofBytes oneLineFile) 1152921504606846976).result
      = Outcome.returned (some l) none := by
  have h : FindPartitions (File.ofBytes oneLineFile) 1152921504606846976
      = ⟨Outcome.panicked, []⟩ := by decide
  refine ⟨by decide, h, ?_⟩
  rintro ⟨l, hl⟩
  rw [h] at hl
  cases hl

/-- C10 at the file of 10 bytes and `2 ^ 60` workers: the count is too high for
the file, but `make` refuses the length and the call panics before the read
that would have cut the list down to one partition. -/
theorem small_file_many_workers_panic :
    tenByteFile.length < 50 ∧ (1 : Int) ≤ 1152921504606846976 ∧
    FindPartitions (File.ofBytes tenByteFile) 1152921504606846976 = ⟨Outcome.panicked, []⟩ ∧
    (FindPartitions (File.ofBytes tenByteFile) 1152921504606846976).result
      ≠ Outcome.returned (some [some { Offset := 0, Length := 10 }]) none := by
  decide

/-- C12 at the empty file and `2 ^ 60` workers: `make` refuses the length and
the call panics, so no partition is returned. -/
theorem empty_file_many_workers_panic :
    (1 : Int) ≤ 1152921504606846976 ∧
    FindPartitions (File.ofBytes []) 1152921504606846976 = ⟨Outcome.panicked, []⟩ ∧
    (FindPartitions (File.ofBytes []) 1152921504606846976).result
      ≠ Outcome.returned (some [some { Offset := 0, Length := 0 }]) none := by
  decide

/-- C4 at a file of three letters and one worker: the only partition is the
whole file, and its last byte is not a newline. -/
theorem last_partition_may_lack_newline :
    (FindPartitions (File.ofBytes abcFile) 1).result
      = Outcome.returned (some [some { Offset := 0, Length := 3 }]) none ∧
    byteAt abcFile (0 + 3 - 1) ≠ some newline := by
  decide

/-- C6, as stated, fails: the file of 100 bytes is not empty, its one newline
is its last byte and the last byte of the window read at 50, so with two
workers the first partition is the whole file and the second has `Length` 0. -/
theorem last_partition_may_be_empty :
    oneLineFile ≠ [] ∧
    (FindPartitions (File.ofBytes oneLineFile) 2).result
      = Outcome.returned
          (some [some { Offset := 0, Length := 100 }, some { Offset := 100, Length := 0 }])
          none ∧
    ¬ (0 < (Partition.mk 100 0).Length) := by
  decide

theorem partition_lengths_nonneg_inner_positive_witness :
    (1 : Int) ≤ 2 ∧ oneLineFile.length < 2 ^ 62 ∧ (2 : Int) ≤ maxSliceLen ∧
    ∃ ps, (FindPartitions (File.ofBytes oneLineFile) 2).result
        = Outcome.returned (some ps) none ∧
      ∀ (i : Nat) (p : Partition), ps[i]? = some (some p) →
        0 ≤ p.Length ∧ (i + 1 < ps.length → 0 < p.Length) :=
  ⟨by decide, by decide, by decide,
    (partition_lengths_nonneg_inner_positive oneLineFile 2 (by decide) (by decide)).1 (by decide)⟩

/-- C2 at a file of 120 letters with no newline and two workers: the window
read at 60 has no newline, slot 0 stays unset, and the one partition that is set
is 60 bytes long, while the file has 120 bytes. -/
theorem long_line_lengths_miss_size :
    (FindPartitions (File.ofBytes longLineFile) 2).result
      = Outcome.returned (some [none, some { Offset := 60, Length := 60 }]) none ∧
    lengthSum [none, some { Offset := 60, Length := 60 }] = 60 ∧
    (longLineFile.length : Int) = 120 := by
  decide

/-- C3 at the same file: the partition at index 1 starts at offset 60, which
is neither 0 nor the byte after a newline: the byte at 59 is a letter. -/
theorem long_line_is_split :
    (FindPartitions (File.ofBytes longLineFile) 2).result
      = Outcome.returned (some [none, some { Offset := 60, Length := 60 }]) none ∧
    (60 : Int) ≠ 0 ∧ byteAt longLineFile (60 - 1) = some 97 ∧ (97 : Byte) ≠ newline := by
  decide

theorem one_worker_whole_file_witness :
    faultyFile.statErr = none ∧ faultyFile.content.length < 2 ^ 63 ∧
    FindPartitions faultyFile 1
      = ⟨Outcome.returned (some [some { Offset := 0, Length := 300 }]) none, []⟩ :=
  ⟨rfl, by decide, one_worker_whole_file faultyFile rfl (by decide)⟩

/-- C13, as stated, fails: for a file of three letters and no worker the call
panics, so it does not return an error. -/
theorem no_worker_returns_no_error :
    (FindPartitions (File.ofBytes abcFile) 0).result = Outcome.panicked ∧
    ¬ ∃ err, (FindPartitions (File.ofBytes abcFile) 0).result
      = Outcome.returned none (some err) := by
  have h : (FindPartitions (File.ofBytes abcFile) 0).result = Outcome.panicked := by decide
  refine ⟨h, ?_⟩
  rintro ⟨err, herr⟩
  rw [h] at herr
  cases herr

theorem no_worker_panics_witness :
    (File.ofBytes abcFile).statErr = none ∧ (-3 : Int) ≤ 0 ∧
    FindPartitions (File.ofBytes abcFile) (-3) = ⟨Outcome.panicked, []⟩ :=
  ⟨rfl, by decide, no_worker_panics (File.ofBytes abcFile) (-3) rfl (by decide)⟩

/-- Two runs of C14: a read at 155 that fails with an I/O error, after the
read at 75 gave a partition, and a `Stat` that fails. -/
theorem errors_are_returned_alone_witness :
    (155 : Int) ∈ (FindPartitions faultyFile 4).reads ∧
    (faultyFile.ReadAt lookahead 155).2 = some (Error.other 5) ∧
    (FindPartitions faultyFile 4).result = Outcome.returned none (some (Error.other 5)) ∧
    FindPartitions unreadableFile 4 = ⟨Outcome.returned none (some (Error.other 13)), []⟩ :=
  ⟨by decide, by decide,
    (errors_are_returned_alone faultyFile 4).2.1 155 (by decide) (Error.other 5) (by decide)
      (by decide),
    (errors_are_returned_alone unreadableFile 4).1 (Error.other 13) rfl⟩

/-- C15, as stated, fails: in the file of ten lines of ten bytes with 4
workers, both nominal boundaries the loop visits, 25 and 55, have a newline
among the next 50 bytes of the file, but fewer than 50 bytes are left at 55, the
read there reports the end of the file, and the list has 2 entries. -/
theorem partial_window_cuts_workers :
    FindPartitions (File.ofBytes shortLinesFile) 4
      = ⟨Outcome.returned
          (some [some { Offset := 0, Length := 30 }, some { Offset := 30, Length := 70 }]) none,
        [25, 55]⟩ ∧
    newline ∈ window shortLinesFile 25 ∧ newline ∈ window shortLinesFile 55 := by
  decide

theorem full_windows_give_all_workers_witness :
    (1 : Int) ≤ 4 ∧ linesFile.length < 2 ^ 62 ∧ (4 : Int) ≤ maxSliceLen ∧
    (∀ off ∈ (FindPartitions (File.ofBytes linesFile) 4).reads,
      off + 50 ≤ (linesFile.length : Int) ∧ newline ∈ window linesFile off) ∧
    ∃ l, (FindPartitions (File.ofBytes linesFile) 4).result = Outcome.returned (some l) none ∧
      (l.length : Int) = 4 ∧ ∀ e ∈ l, e ≠ none :=
  ⟨by decide, by decide, by decide, by decide,
    (full_windows_give_all_workers linesFile 4 (by decide) (by decide) (by decide)).1 (by decide)⟩

/-- A run of C16: with 4 workers on the file of thirty lines the first read is
at 75, the first newline of its window is at position 4, and the entry at
index 0 is `{Offset: 0, Length: 80}`. -/
theorem found_newline_sets_partition_witness :
    (1 : Int) ≤ 4 ∧ linesFile.length < 2 ^ 62 ∧
    (FindPartitions (File.ofBytes linesFile) 4).reads[0]? = some 75 ∧
    (75 : Int) + 50 ≤ (linesFile.length : Int) ∧
    (window linesFile 75)[4]? = some newline ∧
    (∀ j, j < 4 → (window linesFile 75)[j]? ≠ some newline) ∧
    ∃ l e, (FindPartitions (File.ofBytes linesFile) 4).result
        = Outcome.returned (some l) none ∧
      l[0]? = some (some e) ∧
      e.Offset = 75 - Int.tdiv (linesFile.length : Int) 4 ∧
      e.Length = Int.tdiv (linesFile.length : Int) 4 + ((4 : Nat) : Int) + 1 ∧
      (∀ q, l[0 + 1]? = some (some q) → q.Offset = 75 + ((4 : Nat) : Int) + 1) ∧
      (∀ off2, (FindPartitions (File.ofBytes linesFile) 4).reads[0 + 1]? = some off2 →
        off2 = 75 + ((4 : Nat) : Int) + 1 + Int.tdiv (linesFile.length : Int) 4) ∧
      Int.tdiv (linesFile.length : Int) 4 + 1 ≤ e.Length ∧
      e.Length ≤ Int.tdiv (linesFile.length : Int) 4 + 50 :=
  ⟨by decide, by decide, by decide, by decide, by decide, by decide,
    found_newline_sets_partition linesFile 4 (by decide) (by decide) 0 75 4 (by decide)
      (by decide) (by decide) (by decide)⟩

/-- A run of C17: with 2 workers on the file of 120 letters the only read is
at 60 and its window has no newline. -/
theorem missing_newline_leaves_gap_witness :
    (1 : Int) ≤ 2 ∧ longLineFile.length < 2 ^ 62 ∧
    (FindPartitions (File.ofBytes longLineFile) 2).reads[0]? = some 60 ∧
    (60 : Int) + 50 ≤ (longLineFile.length : Int) ∧
    newline ∉ window longLineFile 60 ∧
    ∃ l, (FindPartitions (File.ofBytes longLineFile) 2).result
        = Outcome.returned (some l) none ∧
      l[0]? = some none ∧ 0 + 1 < l.length ∧
      (∀ q, l[0 + 1]? = some (some q) → q.Offset = 60) ∧
      (∀ off2, (FindPartitions (File.ofBytes longLineFile) 2).reads[0 + 1]? = some off2 →
        off2 = 60 + Int.tdiv (longLineFile.length : Int) 2) ∧
      (∀ (j : Nat) (q : Partition), l[j]? = some (some q) →
        q.Offset + q.Length ≤ 60 - Int.tdiv (longLineFile.length : Int) 2 ∨ 60 ≤ q.Offset) :=
  ⟨by decide, by decide, by decide, by decide, by decide,
    missing_newline_leaves_gap longLineFile 2 (by decide) (by decide) 0 60 (by decide)
      (by decide) (by decide)⟩

theorem last_partition_is_smallest_witness :
    (1 : Int) ≤ 4 ∧ linesFile.length < 2 ^ 62 ∧
    (FindPartitions (File.ofBytes linesFile) 4).result
      = Outcome.returned
          (some [some { Offset := 0, Length := 80 }, some { Offset := 80, Length := 80 },
            some { Offset := 160, Length := 80 }, some { Offset := 240, Length := 60 }])
          none ∧
    ∃ last,
      [some { Offset := 0, Length := 80 }, some { Offset := 80, Length := 80 },
          some { Offset := 160, Length := 80 },
          some ({ Offset := 240, Length := 60 } : Partition)].getLast?
        = some (some last) ∧
      last.Length ≤ Int.tdiv (linesFile.length : Int) 4 ∧
      ∀ (i : Nat) (p : Partition),
        i + 1 < [some { Offset := 0, Length := 80 }, some { Offset := 80, Length := 80 },
          some { Offset := 160, Length := 80 },
          some ({ Offset := 240, Length := 60 } : Partition)].length →
        [some { Offset := 0, Length := 80 }, some { Offset := 80, Length := 80 },
          some { Offset := 160, Length := 80 },
          some ({ Offset := 240, Length := 60 } : Partition)][i]? = some (some p) →
        last.Length < p.Length :=
  ⟨by decide, by decide, by decide,
    last_partition_is_smallest linesFile 4 (by decide) (by decide) _ (by decide) (by decide)
      (by decide)⟩

theorem partitions_inside_file_witness :
    (1 : Int) ≤ 3 ∧ longLineFile.length < 2 ^ 62 ∧ (3 : Int) ≤ maxSliceLen ∧
    ∃ l, (FindPartitions (File.ofBytes longLineFile) 3).result
        = Outcome.returned (some l) none ∧
      ∀ (i : Nat) (p : Partition), l[i]? = some (some p) →
        0 ≤ p.Offset ∧ 0 ≤ p.Length ∧ p.Offset + p.Length ≤ (longLineFile.length : Int) :=
  ⟨by decide, by decide, by decide,
    (partitions_inside_file longLineFile 3 (by decide) (by decide)).1 (by decide)⟩

/-- The run of C20: the file of ten lines of ten bytes has 100 bytes, and with
4 workers the list has fewer than 4 entries. -/
theorem all_workers_need_room_witness :
    (2 : Int) ≤ 4 ∧ shortLinesFile.length < 2 ^ 62 ∧ (4 : Int) ≤ maxSliceLen ∧
    ∃ l, (FindPartitions (File.ofBytes shortLinesFile) 4).result
        = Outcome.returned (some l) none ∧
      ((l.length : Int) = 4 →
        (4 - 1) * Int.tdiv (shortLinesFile.length : Int) 4 + 50
          ≤ (shortLinesFile.length : Int)) ∧
      (shortLinesFile.length = 100 → (4 : Int) = 4 → l.length < 4) :=
  ⟨by decide, by decide, by decide,
    (all_workers_need_room shortLinesFile 4 (by decide) (by decide)).1 (by decide)⟩

end Fcer
